import Mathlib

/-!
# Verification of `erand.PChoose32/64`, `netview.NetData` and `patgen.Shuffle`

Shallow embedding of the Go sources:

* `erand/pchoose.go`   : `PChoose32`, `PChoose64`
* `netview/netdata.go` : `LayData`, `NetData`, `RecIdx`, `UnitVal`, buffer layout
* `patgen/shuffle.go`  : `Shuffle`

Conventions.

* The random draw `rand.Float32()` / `rand.Float64()` is an explicit argument `pv`.
* The floating-point carrier is a type `α` with a zero, an addition and a decidable
  strict order, and nothing else is assumed of it for the scan itself; exact
  arithmetic is the instance of a linearly ordered field (for example `ℚ`).
* Go `int` is `Int`, and the arithmetic on buffer lengths and offsets wraps at 64
  bits (`wrapInt64`) as the machine operations do.
* `Binary32` and `Binary64` are the IEEE 754 formats of Go's `float32` and `float64`
  with round-to-nearest-even addition, finite values counted in units of the least
  subnormal.
* A run-time panic is `none`.
* Code outside these three files (`ringidx.Idx`, `erand.PermuteInts`, the table of
  package etable) enters as data or as a function argument.
-/

namespace Erand

/-- The body of `for i, p := range ps { sum += p; if pv < sum { return i } }`,
started at index `i` with running sum `sum`: `some i` is the `return i` inside the
loop, `none` is falling out of the loop. -/
def PChooseLoop {α : Type} [Add α] [LT α] [DecidableRel (fun a b : α => a < b)]
    (pv : α) : List α → α → Nat → Option Nat
  | [], _, _ => none
  | p :: rest, sum, i =>
    let sum1 := sum + p
    if pv < sum1 then some i else PChooseLoop pv rest sum1 (i + 1)

/-- `PChoose32` of pchoose.go, with the draw `pv` as an argument. -/
def PChoose32 {α : Type} [Zero α] [Add α] [LT α] [DecidableRel (fun a b : α => a < b)]
    (ps : List α) (pv : α) : Int :=
  match PChooseLoop pv ps 0 0 with
  | some i => (i : Int)
  | none => (ps.length : Int) - 1

/-- `PChoose64` of pchoose.go, with the draw `pv` as an argument. -/
def PChoose64 {α : Type} [Zero α] [Add α] [LT α] [DecidableRel (fun a b : α => a < b)]
    (ps : List α) (pv : α) : Int :=
  match PChooseLoop pv ps 0 0 with
  | some i => (i : Int)
  | none => (ps.length : Int) - 1

/-- Cumulative sum `ps[0] + ... + ps[i]`, added left to right from zero. -/
def cumSum {α : Type} [Zero α] [Add α] (ps : List α) (i : Nat) : α :=
  (ps.take (i + 1)).foldl (· + ·) 0

/-- Cumulative sum through index `i` of `ps`, started from `s` instead of zero. -/
def cumFrom {α : Type} [Add α] (s : α) (ps : List α) (i : Nat) : α :=
  (ps.take (i + 1)).foldl (· + ·) s

end Erand

namespace Netview

/-- A `float32` datum as far as netdata.go inspects it: a NaN or a number. -/
inductive F32 where
  | NaN : F32
  | num : ℚ → F32
  deriving DecidableEq

/-- `mat32.IsNaN`. -/
def IsNaN : F32 → Bool
  | F32.NaN => true
  | F32.num _ => false

/-- `LayData` of netdata.go. -/
structure LayData where
  LayName : String
  NUnits : Int
  Data : List F32

/-- The ring index `ringidx.Idx` as netdata.go reads it: the fields `Len` and `Max`,
and the results of its methods `LastIdx()`, `IdxIsValid(i)` and `Idx(i)`, which are
taken as given (package ringidx is outside the sources embedded here). -/
structure RingIdx where
  Len : Int
  Max : Int
  LastIdx : Int
  IdxIsValid : Int → Bool
  Idx : Int → Int

/-- `NetData` of netdata.go (the network handle `Net` is not data and is left out);
a Go map is a partial function. -/
structure NetData where
  PrjnLay : String
  PrjnUnIdx : Int
  PrjnType : String
  Vars : List String
  VarIdxs : String → Option Int
  Ring : RingIdx
  LayData : String → Option LayData
  MinPer : List F32
  MaxPer : List F32
  MinVar : List F32
  MaxVar : List F32
  Counters : List String

/-- `NetData.RecIdx`. -/
def RecIdx (nd : NetData) (recno : Int) : Int :=
  let ridx := nd.Ring.LastIdx
  if nd.Ring.IdxIsValid recno then nd.Ring.Idx recno else ridx

/-- Two's-complement wrap-around of Go's 64-bit `int`: the value an arithmetic
operation leaves when its exact result is `x`. -/
def wrapInt64 (x : Int) : Int :=
  (x + 9223372036854775808) % 18446744073709551616 - 9223372036854775808

/-- Length `ltot` of a layer's buffer in `NetData.Config`:
`vmax := vlen * rmax; ltot := vmax * nu`, in 64-bit `int` arithmetic. -/
def ConfigLtot (vlen rmax nu : Int) : Int :=
  let vmax := wrapInt64 (vlen * rmax)
  wrapInt64 (vmax * nu)

/-- Start `idx` of the slice `ld.Data[idx : idx+nu]` written by `NetData.Record`:
`nvu := vlen * nu; idx := lidx*nvu + vi*nu`, in 64-bit `int` arithmetic. -/
def RecordIdx (lidx vlen nu vi : Int) : Int :=
  let nvu := wrapInt64 (vlen * nu)
  wrapInt64 (wrapInt64 (lidx * nvu) + wrapInt64 (vi * nu))

/-- Offset `idx` read by `NetData.UnitVal`:
`nvu := vlen * nu; idx := ridx*nvu + vi*nu + uidx1d`, in 64-bit `int` arithmetic. -/
def UnitValIdx (ridx vlen nu vi uidx1d : Int) : Int :=
  let nvu := wrapInt64 (vlen * nu)
  wrapInt64 (wrapInt64 (wrapInt64 (ridx * nvu) + wrapInt64 (vi * nu)) + uidx1d)

/-- Go slice indexing `s[idx]`: `none` is the index-out-of-range panic. -/
def sliceAt {β : Type} (s : List β) (idx : Int) : Option β :=
  if 0 ≤ idx ∧ idx < (s.length : Int) then s[idx.toNat]? else none

/-- `NetData.UnitVal`: `some (val, ok)` is a normal return, `none` a run-time panic. -/
def UnitVal (nd : NetData) (laynm vnm : String) (uidx1d recno : Int) : Option (F32 × Bool) :=
  if nd.Ring.Len = 0 then some (F32.num 0, false)
  else
    match nd.VarIdxs vnm with
    | none => some (F32.num 0, false)
    | some vi =>
      let vlen : Int := nd.Vars.length
      let ridx := RecIdx nd recno
      match nd.LayData laynm with
      | none => some (F32.num 0, false)
      | some ld =>
        let nu := ld.NUnits
        let idx := UnitValIdx ridx vlen nu vi uidx1d
        match sliceAt ld.Data idx with
        | none => none
        | some val => if IsNaN val then some (F32.num 0, false) else some (val, true)

/-- A recorder state as `Config` and one `Record` leave it: two variables, a ring of
two records holding one, one layer `L` of two units, buffer of `2 * 2 * 2` values. -/
def sampleNetData : NetData where
  PrjnLay := ""
  PrjnUnIdx := 0
  PrjnType := ""
  Vars := ["Act", "Ge"]
  VarIdxs := fun s => if s = "Act" then some 0 else if s = "Ge" then some 1 else none
  Ring := { Len := 1, Max := 2, LastIdx := 0,
            IdxIsValid := fun i => decide (0 ≤ i ∧ i < 1), Idx := fun i => i }
  LayData := fun s =>
    if s = "L" then
      some { LayName := "L", NUnits := 2,
             Data := [F32.num 1, F32.num 2, F32.num 3, F32.num 4,
                      F32.num 0, F32.num 0, F32.num 0, F32.num 0] }
    else none
  MinPer := [F32.num 1, F32.num 3, F32.num 0, F32.num 0]
  MaxPer := [F32.num 2, F32.num 4, F32.num 0, F32.num 0]
  MinVar := [F32.num 1, F32.num 3]
  MaxVar := [F32.num 2, F32.num 4]
  Counters := ["Epoch 0", ""]

end Netview

namespace Patgen

/-- The table as `Shuffle` sees it through `CellTensor(colNm, row)`: the cell of a
column at a row, `none` where the column or the row does not exist. -/
abbrev Table (β : Type) := String → Int → Option β

/-- `dt.Clone()`: an independent copy with the same cells. -/
def Clone {β : Type} (dt : Table β) : Table β := dt

/-- `dt.CellTensor(colNm, row)`. -/
def CellTensor {β : Type} (dt : Table β) (colNm : String) (row : Int) : Option β :=
  dt colNm row

/-- `dt.CellTensor(colNm, row).CopyFrom(src)`: the cell takes the values of `src`,
every other cell is left as it is. -/
def CopyFrom {β : Type} (dt : Table β) (colNm : String) (row : Int) (src : β) : Table β :=
  fun c r => if c = colNm ∧ r = row then some src else dt c r

/-- The inner loop `for i, row := range rows { dt.CellTensor(colNm, row).CopyFrom(
cl.CellTensor(colNm, sfrows[i])) }`, from index `i` on; `none` is a run-time panic
(index out of range, or a cell that does not exist). -/
def copyRows {β : Type} (cl : Table β) (colNm : String) (sfrows : List Int) :
    List Int → Nat → Table β → Option (Table β)
  | [], _, dt => some dt
  | row :: rest, i, dt =>
    match sfrows[i]? with
    | none => none
    | some sr =>
      match CellTensor dt colNm row, CellTensor cl colNm sr with
      | some _, some src => copyRows cl colNm sfrows rest (i + 1) (CopyFrom dt colNm row src)
      | _, _ => none

/-- The loop `for _, colNm := range colNames`, where `sf k` is the shuffled row list
in force for the column at position `k`. -/
def colLoop {β : Type} (cl : Table β) (rows : List Int) (sf : Nat → List Int) :
    List String → Nat → Table β → Option (Table β)
  | [], _, dt => some dt
  | colNm :: rest, k, dt =>
    match copyRows cl colNm (sf k) rows 0 dt with
    | none => none
    | some dt1 => colLoop cl rows sf rest (k + 1) dt1

/-- `Shuffle` of shuffle.go. `PermuteInts k rows` is what the `k`-th call (from 0) of
`erand.PermuteInts` leaves in the copy `sfrows` of `rows`. -/
def Shuffle {β : Type} (dt : Table β) (rows : List Int) (colNames : List String)
    (colIndependent : Bool) (PermuteInts : Nat → List Int → List Int) : Option (Table β) :=
  let cl := Clone dt
  if colIndependent then
    colLoop cl rows (fun k => PermuteInts k rows) colNames 0 dt
  else
    let sfrows := PermuteInts 0 rows
    colLoop cl rows (fun _ => sfrows) colNames 0 dt

/-- The shuffled row list used for the column at position `k` of `colNames`. -/
def sfrowsAt (colIndependent : Bool) (PermuteInts : Nat → List Int → List Int)
    (rows : List Int) (k : Nat) : List Int :=
  if colIndependent then PermuteInts k rows else PermuteInts 0 rows

/-- A table with one column `A` of three rows holding 10, 11 and 12. -/
def sampleTable : Table Nat :=
  fun c r =>
    if c = "A" then
      (if r = 0 then some 10 else if r = 1 then some 11 else if r = 2 then some 12 else none)
    else none

/-- One possible outcome of `erand.PermuteInts`: the list reversed. -/
def reverseInts : Nat → List Int → List Int :=
  fun _ l => l.reverse

end Patgen

namespace Erand

theorem cumSum_eq_cumFrom {β : Type} [Zero β] [Add β] (ps : List β) (i : Nat) :
    cumSum ps i = cumFrom 0 ps i := rfl

theorem cumFrom_cons_zero {β : Type} [Add β] (s p : β) (rest : List β) :
    cumFrom s (p :: rest) 0 = s + p := by
  simp [cumFrom]

theorem cumFrom_cons_succ {β : Type} [Add β] (s p : β) (rest : List β) (i : Nat) :
    cumFrom s (p :: rest) (i + 1) = cumFrom (s + p) rest i := by
  simp [cumFrom]

/-- The loop returns `some (i0 + k)` exactly at the least position `k` whose
running sum exceeds the draw. -/
theorem PChooseLoop_some {α : Type} [Add α] [LT α] [DecidableRel (fun a b : α => a < b)]
    (pv : α) :
    ∀ (ps : List α) (s : α) (i0 : Nat),
      (∃ k, k < ps.length ∧ pv < cumFrom s ps k) →
      ∃ k, k < ps.length ∧ PChooseLoop pv ps s i0 = some (i0 + k) ∧
        pv < cumFrom s ps k ∧ ∀ j, j < k → ¬ pv < cumFrom s ps j := by
  intro ps
  induction ps with
  | nil =>
    intro s i0 h
    obtain ⟨k, hk, _⟩ := h
    simp at hk
  | cons p rest ih =>
    intro s i0 h
    by_cases hlt : pv < s + p
    · refine ⟨0, by simp, ?_, ?_, ?_⟩
      · simp [PChooseLoop, hlt]
      · rw [cumFrom_cons_zero]; exact hlt
      · intro j hj; omega
    · obtain ⟨k, hk, hkv⟩ := h
      have hrest : ∃ k, k < rest.length ∧ pv < cumFrom (s + p) rest k := by
        cases k with
        | zero => rw [cumFrom_cons_zero] at hkv; exact absurd hkv hlt
        | succ k =>
          rw [cumFrom_cons_succ] at hkv
          exact ⟨k, by simpa using hk, hkv⟩
      obtain ⟨m, hm, hloop, hmv, hmin⟩ := ih (s + p) (i0 + 1) hrest
      refine ⟨m + 1, by simpa using hm, ?_, ?_, ?_⟩
      · simp only [PChooseLoop, hlt, if_false]
        rw [hloop]; congr 1; omega
      · rw [cumFrom_cons_succ]; exact hmv
      · intro j hj
        cases j with
        | zero => rw [cumFrom_cons_zero]; exact hlt
        | succ j =>
          rw [cumFrom_cons_succ]
          exact hmin j (by omega)

/-- The loop falls through when no running sum exceeds the draw. -/
theorem PChooseLoop_none {α : Type} [Add α] [LT α] [DecidableRel (fun a b : α => a < b)]
    (pv : α) :
    ∀ (ps : List α) (s : α) (i0 : Nat),
      (∀ k, k < ps.length → ¬ pv < cumFrom s ps k) →
      PChooseLoop pv ps s i0 = none := by
  intro ps
  induction ps with
  | nil => intro s i0 _; rfl
  | cons p rest ih =>
    intro s i0 h
    have h0 : ¬ pv < s + p := by
      have := h 0 (by simp)
      rwa [cumFrom_cons_zero] at this
    simp only [PChooseLoop, h0, if_false]
    apply ih
    intro k hk
    have := h (k + 1) (by simpa using hk)
    rwa [cumFrom_cons_succ] at this

/-- In exact arithmetic the left-to-right running sum is the sum of the leading segment. -/
theorem cumSum_eq_sum {F : Type} [LinearOrderedField F] (ps : List F) (i : Nat) :
    cumSum ps i = (ps.take (i + 1)).sum := by
  unfold cumSum
  rw [List.sum_eq_foldl]

/-- Claim C1. Whenever some index has a cumulative sum strictly above the draw `v`,
`PChoose32` and `PChoose64` return the least such index `i`: the cumulative sum
through `i` exceeds `v` and the cumulative sum through every earlier index does not. -/
theorem PChoose_returns_least_index {α : Type} [Zero α] [Add α] [LT α]
    [DecidableRel (fun a b : α => a < b)]
    (ps : List α) (v : α)
    (h : ∃ i, i < ps.length ∧ v < cumSum ps i) :
    ∃ i, i < ps.length ∧ PChoose32 ps v = (i : Int) ∧ PChoose64 ps v = (i : Int) ∧
      v < cumSum ps i ∧ ∀ j, j < i → ¬ v < cumSum ps j := by
  obtain ⟨k, hk, hloop, hv, hmin⟩ := PChooseLoop_some v ps 0 0 h
  rw [Nat.zero_add] at hloop
  exact ⟨k, hk, by simp [PChoose32, hloop], by simp [PChoose64, hloop], hv, hmin⟩

/-- Witness of C1 at weights `[1/4, 1/4, 1/2]` and draw `3/10`: index 1 is returned. -/
theorem PChoose_returns_least_index_witness :
    ∃ i, i < ([1/4, 1/4, 1/2] : List ℚ).length ∧
      PChoose32 ([1/4, 1/4, 1/2] : List ℚ) (3/10) = (i : Int) ∧
      PChoose64 ([1/4, 1/4, 1/2] : List ℚ) (3/10) = (i : Int) ∧
      (3/10 : ℚ) < cumSum ([1/4, 1/4, 1/2] : List ℚ) i ∧
      ∀ j, j < i → ¬ (3/10 : ℚ) < cumSum ([1/4, 1/4, 1/2] : List ℚ) j :=
  PChoose_returns_least_index ([1/4, 1/4, 1/2] : List ℚ) (3/10)
    ⟨1, by simp, by simp [cumSum]; norm_num⟩

/-- Claim C2 as stated fails: with weights `[1/2]` and draw `3/4` no cumulative sum
exceeds the draw, yet the result is `0`, not `len(ps) = 1`. -/
theorem PChoose_no_sentinel_counterexample :
    (∀ i, i < ([1/2] : List ℚ).length → ¬ (3/4 : ℚ) < cumSum ([1/2] : List ℚ) i) ∧
      PChoose32 ([1/2] : List ℚ) (3/4) = 0 ∧
      PChoose64 ([1/2] : List ℚ) (3/4) = 0 ∧
      PChoose32 ([1/2] : List ℚ) (3/4) ≠ (([1/2] : List ℚ).length : Int) ∧
      PChoose64 ([1/2] : List ℚ) (3/4) ≠ (([1/2] : List ℚ).length : Int) := by
  have hlt : ¬ ((3 : ℚ) / 4 < 0 + 1 / 2) := by norm_num
  have h32 : PChoose32 ([1/2] : List ℚ) (3/4) = 0 := by
    simp only [PChoose32, PChooseLoop, hlt, if_false]; rfl
  have h64 : PChoose64 ([1/2] : List ℚ) (3/4) = 0 := by
    simp only [PChoose64, PChooseLoop, hlt, if_false]; rfl
  refine ⟨?_, h32, h64, ?_, ?_⟩
  · intro i _
    have : cumSum ([1/2] : List ℚ) i = 0 + 1 / 2 := by
      cases i <;> simp [cumSum]
    rw [this]; exact hlt
  · rw [h32]; simp
  · rw [h64]; simp

/-- Claim C2, amended. When no index has a cumulative sum strictly above the draw,
`PChoose32` and `PChoose64` return `len(ps) - 1`: the last index, and `-1` for the
empty sequence. -/
theorem PChoose_fallback_last_index {α : Type} [Zero α] [Add α] [LT α]
    [DecidableRel (fun a b : α => a < b)]
    (ps : List α) (v : α)
    (h : ∀ i, i < ps.length → ¬ v < cumSum ps i) :
    PChoose32 ps v = (ps.length : Int) - 1 ∧ PChoose64 ps v = (ps.length : Int) - 1 := by
  have hloop := PChooseLoop_none v ps 0 0 h
  exact ⟨by simp [PChoose32, hloop], by simp [PChoose64, hloop]⟩

/-- Witness of the amended C2 at weights `[1/4, 1/4]` and draw `3/4`. -/
theorem PChoose_fallback_last_index_witness :
    PChoose32 ([1/4, 1/4] : List ℚ) (3/4) = (([1/4, 1/4] : List ℚ).length : Int) - 1 ∧
      PChoose64 ([1/4, 1/4] : List ℚ) (3/4) = (([1/4, 1/4] : List ℚ).length : Int) - 1 :=
  PChoose_fallback_last_index ([1/4, 1/4] : List ℚ) (3/4) (by
    intro i _
    have : cumSum ([1/4, 1/4] : List ℚ) i = 1 / 4 ∨ cumSum ([1/4, 1/4] : List ℚ) i = 1 / 2 := by
      rcases i with _ | _ | i
      · left; simp [cumSum]
      · right; simp [cumSum]; norm_num
      · right; simp [cumSum]; norm_num
    rcases this with h | h <;> rw [h] <;> norm_num)

/-- Claim C3 as stated fails: on the empty sequence the result is not index `0`. -/
theorem PChoose_empty_counterexample :
    PChoose32 ([] : List ℚ) (1/2) ≠ 0 ∧ PChoose64 ([] : List ℚ) (1/2) ≠ 0 := by
  constructor <;> simp [PChoose32, PChoose64, PChooseLoop]

/-- Claim C3, amended. On the empty sequence, for every draw, `PChoose32` and
`PChoose64` return `-1` (that is `len(ps) - 1`); the scan does not fault. -/
theorem PChoose_empty {α : Type} [Zero α] [Add α] [LT α]
    [DecidableRel (fun a b : α => a < b)]
    (v : α) :
    PChoose32 ([] : List α) v = -1 ∧ PChoose64 ([] : List α) v = -1 := by
  constructor <;> simp [PChoose32, PChoose64, PChooseLoop]

/-- Claim C4. For non-negative weights with exact sum 1 and a draw `0 ≤ v < 1`, the
scan returns inside the loop (the fallback after the loop is not reached): the
result is an index `i < len(ps)` whose cumulative sum exceeds `v`. -/
theorem PChoose_normalized_in_range {F : Type} [LinearOrderedField F]
    (ps : List F) (v : F) (_hnn : ∀ p ∈ ps, 0 ≤ p) (hsum : ps.sum = 1)
    (_hv0 : 0 ≤ v) (hv1 : v < 1) :
    ∃ i, i < ps.length ∧ PChooseLoop v ps 0 0 = some i ∧
      PChoose32 ps v = (i : Int) ∧ PChoose64 ps v = (i : Int) ∧
      PChoose32 ps v ≠ (ps.length : Int) ∧ PChoose64 ps v ≠ (ps.length : Int) ∧
      v < cumSum ps i := by
  have hne : ps ≠ [] := by
    rintro rfl
    simp at hsum
  have hlen : 0 < ps.length := List.length_pos.mpr hne
  have hex : ∃ k, k < ps.length ∧ v < cumFrom 0 ps k := by
    refine ⟨ps.length - 1, by omega, ?_⟩
    rw [← cumSum_eq_cumFrom, cumSum_eq_sum]
    have : ps.length - 1 + 1 = ps.length := by omega
    rw [this, List.take_length, hsum]
    exact hv1
  obtain ⟨k, hk, hloop, hv, _⟩ := PChooseLoop_some v ps 0 0 hex
  rw [Nat.zero_add] at hloop
  have h32 : PChoose32 ps v = (k : Int) := by simp [PChoose32, hloop]
  have h64 : PChoose64 ps v = (k : Int) := by simp [PChoose64, hloop]
  refine ⟨k, hk, hloop, h32, h64, ?_, ?_, hv⟩
  · rw [h32]; omega
  · rw [h64]; omega

/-- Witness of C4 at weights `[1/2, 1/2]` and draw `3/4`. -/
theorem PChoose_normalized_in_range_witness :
    ∃ i, i < ([1/2, 1/2] : List ℚ).length ∧
      PChooseLoop (3/4 : ℚ) ([1/2, 1/2] : List ℚ) 0 0 = some i ∧
      PChoose32 ([1/2, 1/2] : List ℚ) (3/4) = (i : Int) ∧
      PChoose64 ([1/2, 1/2] : List ℚ) (3/4) = (i : Int) ∧
      PChoose32 ([1/2, 1/2] : List ℚ) (3/4) ≠ (([1/2, 1/2] : List ℚ).length : Int) ∧
      PChoose64 ([1/2, 1/2] : List ℚ) (3/4) ≠ (([1/2, 1/2] : List ℚ).length : Int) ∧
      (3/4 : ℚ) < cumSum ([1/2, 1/2] : List ℚ) i :=
  PChoose_normalized_in_range ([1/2, 1/2] : List ℚ) (3/4)
    (by intro p hp; simp at hp; rw [hp]; norm_num) (by norm_num) (by norm_num) (by norm_num)

end Erand

namespace Netview

/-- Uniqueness of quotient and remainder, in the form the layout needs. -/
theorem mixed_radix_unique (n q r q2 r2 : Int) (hr : 0 ≤ r) (hrn : r < n)
    (hr2 : 0 ≤ r2) (hr2n : r2 < n) (h : q * n + r = q2 * n + r2) : q = q2 ∧ r = r2 := by
  have hq : q = q2 := by
    rcases lt_trichotomy q q2 with hlt | heq | hgt
    · exfalso
      have : (q + 1) * n ≤ q2 * n := by
        apply mul_le_mul_of_nonneg_right _ (by omega)
        omega
      nlinarith
    · exact heq
    · exfalso
      have : (q2 + 1) * n ≤ q * n := by
        apply mul_le_mul_of_nonneg_right _ (by omega)
        omega
      nlinarith
  subst hq
  exact ⟨rfl, by omega⟩

theorem wrapInt64_of_fits (x : Int) (h0 : 0 ≤ x) (h1 : x < 9223372036854775808) :
    wrapInt64 x = x := by
  unfold wrapInt64
  omega

/-- While the indices are in range and the exact buffer length is below `2^63`, no
operation of `Config`, `Record` or `UnitVal` wraps: length and offsets are the exact
products and sums. -/
theorem layout_exact (rmax vlen nu ridx vi ui : Int)
    (hr0 : 0 ≤ ridx) (hr : ridx < rmax) (hv0 : 0 ≤ vi) (hv : vi < vlen)
    (hu0 : 0 ≤ ui) (hu : ui < nu) (hfit : rmax * vlen * nu < 9223372036854775808) :
    ConfigLtot vlen rmax nu = rmax * (vlen * nu) ∧
      RecordIdx ridx vlen nu vi = ridx * (vlen * nu) + vi * nu ∧
      UnitValIdx ridx vlen nu vi ui = ridx * (vlen * nu) + vi * nu + ui := by
  have hnu : 1 ≤ nu := by omega
  have hvl : 1 ≤ vlen := by omega
  have hrm : 1 ≤ rmax := by omega
  have hN : 0 < vlen * nu := mul_pos (by omega) (by omega)
  have hM : 0 < vlen * rmax := mul_pos (by omega) (by omega)
  have e1 : rmax * vlen * nu = vlen * rmax * nu := by ring
  have e2 : rmax * vlen * nu = rmax * (vlen * nu) := by ring
  have b1 : vlen * rmax ≤ vlen * rmax * nu := le_mul_of_one_le_right (by omega) hnu
  have b2 : vlen * nu ≤ rmax * (vlen * nu) := le_mul_of_one_le_left (by omega) hrm
  have b3 : vi * nu + nu ≤ vlen * nu := by
    have : (vi + 1) * nu ≤ vlen * nu := mul_le_mul_of_nonneg_right (by omega) (by omega)
    linarith
  have b4 : ridx * (vlen * nu) + vlen * nu ≤ rmax * (vlen * nu) := by
    have : (ridx + 1) * (vlen * nu) ≤ rmax * (vlen * nu) :=
      mul_le_mul_of_nonneg_right (by omega) (by omega)
    linarith
  have p1 : 0 ≤ vi * nu := mul_nonneg hv0 (by omega)
  have p2 : 0 ≤ ridx * (vlen * nu) := mul_nonneg hr0 (by omega)
  have w1 : wrapInt64 (vlen * rmax) = vlen * rmax := wrapInt64_of_fits _ (by omega) (by omega)
  have w2 : wrapInt64 (vlen * nu) = vlen * nu := wrapInt64_of_fits _ (by omega) (by omega)
  have w3 : wrapInt64 (vi * nu) = vi * nu := wrapInt64_of_fits _ p1 (by omega)
  have w4 : wrapInt64 (ridx * (vlen * nu)) = ridx * (vlen * nu) :=
    wrapInt64_of_fits _ p2 (by omega)
  have w5 : wrapInt64 (ridx * (vlen * nu) + vi * nu) = ridx * (vlen * nu) + vi * nu :=
    wrapInt64_of_fits _ (by omega) (by omega)
  refine ⟨?_, ?_, ?_⟩
  · simp only [ConfigLtot, w1]
    rw [wrapInt64_of_fits _ (by omega) (by omega)]
    ring
  · simp only [RecordIdx, w2, w3, w4, w5]
  · simp only [UnitValIdx, w2, w3, w4, w5]
    exact wrapInt64_of_fits _ (by omega) (by omega)

/-- Claim C5 fails on the code: a unit index past the stored data makes `UnitVal`
panic on `ld.Data[idx]`, and a unit index at or past `NUnits` that still lands inside
the buffer returns another variable's value with `ok = true`. -/
theorem UnitVal_unchecked_unit_index :
    UnitVal sampleNetData "L" "Act" 100 (-1) = none ∧
      UnitVal sampleNetData "L" "Act" (-1) (-1) = none ∧
      UnitVal sampleNetData "L" "Act" 2 (-1) = some (F32.num 3, true) ∧
      UnitVal sampleNetData "L" "Ge" 0 (-1) = some (F32.num 3, true) := by
  refine ⟨?_, ?_, ?_, ?_⟩ <;>
    simp [UnitVal, sampleNetData, RecIdx, UnitValIdx, wrapInt64, sliceAt, IsNaN]

/-- Claim C7 as stated fails for sizes whose product does not fit Go's 64-bit `int`.
With `vlen = 2`, `rmax = 2`, `nu = 2^62` the length computed by `Config` wraps to 0,
so the in-range offset 0 is not below it; with `nu = 2^62 + 1` the length wraps to 4
and the distinct in-range triples `(0, 0, 1)` and `(1, 1, 2^62 - 2)` share offset 1. -/
theorem layout_wraps_counterexample :
    ((0 : Int) < 2 ∧ (0 : Int) < 4611686018427387904 ∧
      ConfigLtot 2 2 4611686018427387904 = 0 ∧
      ¬ (UnitValIdx 0 2 4611686018427387904 0 0 < ConfigLtot 2 2 4611686018427387904)) ∧
    ((1 : Int) < 2 ∧ (1 : Int) < 4611686018427387905 ∧
      (4611686018427387902 : Int) < 4611686018427387905 ∧
      ConfigLtot 2 2 4611686018427387905 = 4 ∧
      UnitValIdx 0 2 4611686018427387905 0 1 = 1 ∧
      UnitValIdx 1 2 4611686018427387905 1 4611686018427387902 = 1 ∧
      ((0 : Int), (0 : Int), (1 : Int)) ≠ (1, 1, 4611686018427387902)) := by
  refine ⟨⟨by decide, by decide, by decide, by decide⟩,
    ⟨by decide, by decide, by decide, by decide, by decide, by decide, by decide⟩⟩

/-- Claim C7, amended. When the exact buffer length `rmax*vlen*nu` is below `2^63`,
and `0 ≤ ridx < rmax`, `0 ≤ vi < vlen`, `0 ≤ ui < nu`: `Config` allocates
`rmax*vlen*nu` values, the offset read by `UnitVal` is `ridx*(vlen*nu) + vi*nu + ui`,
it is the slot `ui` of the slice written by `Record`, it lies inside the buffer (as
does the whole slice), and two in-range triples with the same offset are the same
triple. -/
theorem layout_in_bounds_injective (rmax vlen nu ridx vi ui ridx2 vi2 ui2 : Int)
    (hfit : rmax * vlen * nu < 9223372036854775808)
    (hr0 : 0 ≤ ridx) (hr : ridx < rmax) (hv0 : 0 ≤ vi) (hv : vi < vlen)
    (hu0 : 0 ≤ ui) (hu : ui < nu)
    (hr0b : 0 ≤ ridx2) (hrb : ridx2 < rmax) (hv0b : 0 ≤ vi2) (hvb : vi2 < vlen)
    (hu0b : 0 ≤ ui2) (hub : ui2 < nu) :
    ConfigLtot vlen rmax nu = rmax * vlen * nu ∧
      UnitValIdx ridx vlen nu vi ui = ridx * (vlen * nu) + vi * nu + ui ∧
      UnitValIdx ridx vlen nu vi ui = RecordIdx ridx vlen nu vi + ui ∧
      0 ≤ RecordIdx ridx vlen nu vi ∧
      RecordIdx ridx vlen nu vi + nu ≤ ConfigLtot vlen rmax nu ∧
      0 ≤ UnitValIdx ridx vlen nu vi ui ∧
      UnitValIdx ridx vlen nu vi ui < ConfigLtot vlen rmax nu ∧
      (UnitValIdx ridx vlen nu vi ui = UnitValIdx ridx2 vlen nu vi2 ui2 →
        ridx = ridx2 ∧ vi = vi2 ∧ ui = ui2) := by
  obtain ⟨hlt, hrec, huv⟩ := layout_exact rmax vlen nu ridx vi ui hr0 hr hv0 hv hu0 hu hfit
  obtain ⟨_, _, huv2⟩ :=
    layout_exact rmax vlen nu ridx2 vi2 ui2 hr0b hrb hv0b hvb hu0b hub hfit
  have hnu : 0 < nu := by omega
  have hvl : 0 < vlen := by omega
  have hN : 0 < vlen * nu := mul_pos hvl hnu
  have hvn : vi * nu + nu ≤ vlen * nu := by
    have : (vi + 1) * nu ≤ vlen * nu := mul_le_mul_of_nonneg_right (by omega) (by omega)
    linarith
  have hvn2 : vi2 * nu + nu ≤ vlen * nu := by
    have : (vi2 + 1) * nu ≤ vlen * nu := mul_le_mul_of_nonneg_right (by omega) (by omega)
    linarith
  have hrn : ridx * (vlen * nu) + vlen * nu ≤ rmax * (vlen * nu) := by
    have : (ridx + 1) * (vlen * nu) ≤ rmax * (vlen * nu) :=
      mul_le_mul_of_nonneg_right (by omega) (by omega)
    linarith
  have hvi0 : 0 ≤ vi * nu := mul_nonneg hv0 (by omega)
  have hvi20 : 0 ≤ vi2 * nu := mul_nonneg hv0b (by omega)
  have hri0 : 0 ≤ ridx * (vlen * nu) := mul_nonneg hr0 (by omega)
  refine ⟨by rw [hlt]; ring, huv, by rw [huv, hrec], ?_, ?_, ?_, ?_, ?_⟩
  · rw [hrec]; omega
  · rw [hlt, hrec]; omega
  · rw [huv]; omega
  · rw [hlt, huv]; omega
  · intro h
    rw [huv, huv2] at h
    have h1 := mixed_radix_unique (vlen * nu) ridx (vi * nu + ui) ridx2 (vi2 * nu + ui2)
      (by omega) (by omega) (by omega) (by omega) (by omega)
    have h2 := mixed_radix_unique nu vi ui vi2 ui2 hu0 hu hu0b hub h1.2
    exact ⟨h1.1, h2.1, h2.2⟩

/-- Witness of the amended C7 on a ring of 2 records, 3 variables and 4 units. -/
theorem layout_in_bounds_injective_witness :
    ConfigLtot 3 2 4 = 2 * 3 * 4 ∧
      UnitValIdx 1 3 4 2 3 = 1 * (3 * 4) + 2 * 4 + 3 ∧
      UnitValIdx 1 3 4 2 3 = RecordIdx 1 3 4 2 + 3 ∧
      0 ≤ RecordIdx 1 3 4 2 ∧
      RecordIdx 1 3 4 2 + 4 ≤ ConfigLtot 3 2 4 ∧
      0 ≤ UnitValIdx 1 3 4 2 3 ∧
      UnitValIdx 1 3 4 2 3 < ConfigLtot 3 2 4 ∧
      (UnitValIdx 1 3 4 2 3 = UnitValIdx 0 3 4 1 2 →
        (1 : Int) = 0 ∧ (2 : Int) = 1 ∧ (3 : Int) = 2) :=
  layout_in_bounds_injective 2 3 4 1 2 3 0 1 2 (by decide)
    (by decide) (by decide) (by decide) (by decide) (by decide) (by decide)
    (by decide) (by decide) (by decide) (by decide) (by decide) (by decide)

end Netview

namespace Patgen

theorem copyRows_spec {β : Type} (cl : Table β) (colNm : String) (sfrows : List Int) :
    ∀ (rest : List Int) (i : Nat) (dt : Table β),
      rest.Nodup →
      (∀ j, j < rest.length → ∃ sr, sfrows[i + j]? = some sr ∧ (cl colNm sr).isSome) →
      (∀ r ∈ rest, (dt colNm r).isSome) →
      ∃ dt1, copyRows cl colNm sfrows rest i dt = some dt1 ∧
        (∀ c r, (c ≠ colNm ∨ r ∉ rest) → dt1 c r = dt c r) ∧
        (∀ c r, (dt c r).isSome → (dt1 c r).isSome) ∧
        (∀ j row sr, rest[j]? = some row → sfrows[i + j]? = some sr →
          dt1 colNm row = cl colNm sr) := by
  intro rest
  induction rest with
  | nil =>
    intro i dt _ _ _
    exact ⟨dt, rfl, fun _ _ _ => rfl, fun _ _ h => h, by simp⟩
  | cons row rest ih =>
    intro i dt hnd hsf hdt
    obtain ⟨sr0, hsr0, hcl0⟩ := hsf 0 (by simp)
    rw [Nat.add_zero] at hsr0
    obtain ⟨src, hsrc⟩ := Option.isSome_iff_exists.mp hcl0
    obtain ⟨old, hold⟩ := Option.isSome_iff_exists.mp (hdt row (by simp))
    have hnd2 : rest.Nodup := (List.nodup_cons.mp hnd).2
    have hrow : row ∉ rest := (List.nodup_cons.mp hnd).1
    obtain ⟨dt1, hrun, hframe, hsome, hval⟩ := ih (i + 1) (CopyFrom dt colNm row src) hnd2
      (by
        intro j hj
        have := hsf (j + 1) (by simpa using hj)
        rwa [show i + (j + 1) = i + 1 + j by omega] at this)
      (by
        intro r hr
        unfold CopyFrom
        by_cases hc : r = row
        · simp [hc]
        · simp only [hc, and_false, if_false]; exact hdt r (List.mem_cons_of_mem _ hr))
    refine ⟨dt1, ?_, ?_, ?_, ?_⟩
    · simp only [copyRows, hsr0, CellTensor, hold, hsrc]
      exact hrun
    · intro c r hcr
      have h1 : dt1 c r = CopyFrom dt colNm row src c r := by
        apply hframe
        rcases hcr with h | h
        · exact Or.inl h
        · exact Or.inr (fun hm => h (List.mem_cons_of_mem _ hm))
      rw [h1]
      unfold CopyFrom
      have : ¬ (c = colNm ∧ r = row) := by
        rintro ⟨hc, hr⟩
        rcases hcr with h | h
        · exact h hc
        · exact h (by rw [hr]; simp)
      simp only [this, if_false]
    · intro c r h
      apply hsome
      unfold CopyFrom
      by_cases hc : c = colNm ∧ r = row
      · simp [hc]
      · simp only [hc, if_false]; exact h
    · intro j r sr hj hs
      cases j with
      | zero =>
        simp only [List.getElem?_cons_zero, Option.some.injEq] at hj
        subst hj
        rw [Nat.add_zero, hsr0] at hs
        cases hs
        rw [hframe colNm row (Or.inr hrow)]
        simp [CopyFrom, hsrc]
      | succ j =>
        simp only [List.getElem?_cons_succ] at hj
        exact hval j r sr hj (by rwa [show i + 1 + j = i + (j + 1) by omega])

theorem colLoop_spec {β : Type} (cl : Table β) (rows : List Int) (sf : Nat → List Int)
    (hnd : rows.Nodup)
    (hsf : ∀ k j, j < rows.length → ∃ sr, (sf k)[j]? = some sr ∧ sr ∈ rows) :
    ∀ (cols : List String) (k : Nat) (dt : Table β),
      (∀ c ∈ cols, ∀ r ∈ rows, (cl c r).isSome) →
      (∀ c ∈ cols, ∀ r ∈ rows, (dt c r).isSome) →
      ∃ dt1, colLoop cl rows sf cols k dt = some dt1 ∧
        (∀ c r, (c ∉ cols ∨ r ∉ rows) → dt1 c r = dt c r) ∧
        (∀ c r, (dt c r).isSome → (dt1 c r).isSome) ∧
        (∀ c ∈ cols, ∃ m, m < cols.length ∧ cols[m]? = some c ∧
          ∀ (i : Nat) (row sr : Int), rows[i]? = some row → (sf (k + m))[i]? = some sr →
            dt1 c row = cl c sr) := by
  intro cols
  induction cols with
  | nil =>
    intro k dt _ _
    exact ⟨dt, rfl, fun _ _ _ => rfl, fun _ _ h => h, by simp⟩
  | cons col rest ih =>
    intro k dt hcl hdt
    obtain ⟨dt1, hrun1, hframe1, hsome1, hval1⟩ :=
      copyRows_spec cl col (sf k) rows 0 dt hnd
        (by
          intro j hj
          obtain ⟨sr, hsr, hmem⟩ := hsf k j hj
          exact ⟨sr, by rwa [Nat.zero_add], hcl col (by simp) sr hmem⟩)
        (hdt col (by simp))
    obtain ⟨dt2, hrun2, hframe2, hsome2, hval2⟩ := ih (k + 1) dt1
      (fun c hc r hr => hcl c (List.mem_cons_of_mem _ hc) r hr)
      (fun c hc r hr => hsome1 c r (hdt c (List.mem_cons_of_mem _ hc) r hr))
    refine ⟨dt2, ?_, ?_, ?_, ?_⟩
    · simp only [colLoop, hrun1]
      exact hrun2
    · intro c r hcr
      have h2 : dt2 c r = dt1 c r := by
        apply hframe2
        rcases hcr with h | h
        · exact Or.inl (fun hm => h (List.mem_cons_of_mem _ hm))
        · exact Or.inr h
      rw [h2]
      apply hframe1
      rcases hcr with h | h
      · exact Or.inl (fun hc => h (by rw [hc]; simp))
      · exact Or.inr h
    · intro c r h
      exact hsome2 c r (hsome1 c r h)
    · intro c hc
      by_cases hin : c ∈ rest
      · obtain ⟨m, hm, hcm, hv⟩ := hval2 c hin
        refine ⟨m + 1, by simpa using hm, by simpa using hcm, ?_⟩
        intro i row sr hi hs
        exact hv i row sr hi (by rwa [show k + 1 + m = k + (m + 1) by omega])
      · have hceq : c = col := by
          rcases List.mem_cons.mp hc with h | h
          · exact h
          · exact absurd h hin
        subst hceq
        refine ⟨0, by simp, by simp, ?_⟩
        intro i row sr hi hs
        rw [hframe2 c row (Or.inl hin)]
        exact hval1 i row sr hi (by rwa [Nat.zero_add, ← Nat.add_zero k])

theorem perm_getElem_mem (rows sfrows : List Int) (hp : sfrows.Perm rows) (j : Nat)
    (hj : j < rows.length) : ∃ sr, sfrows[j]? = some sr ∧ sr ∈ rows := by
  have hlen : j < sfrows.length := by rw [hp.length_eq]; exact hj
  exact ⟨sfrows[j], List.getElem?_eq_getElem hlen, hp.subset (List.getElem_mem hlen)⟩

theorem map_eq_of_pointwise {β : Type} (rows sfrows : List Int) (f g : Int → Option β)
    (hlen : sfrows.length = rows.length)
    (h : ∀ (i : Nat) (row sr : Int), rows[i]? = some row → sfrows[i]? = some sr → f row = g sr) :
    rows.map f = sfrows.map g := by
  apply List.ext_getElem?
  intro i
  simp only [List.getElem?_map]
  by_cases hi : i < rows.length
  · have hi2 : i < sfrows.length := by omega
    rw [List.getElem?_eq_getElem hi, List.getElem?_eq_getElem hi2]
    simp only [Option.map_some']
    rw [h i rows[i] sfrows[i] (List.getElem?_eq_getElem hi) (List.getElem?_eq_getElem hi2)]
  · have hi2 : ¬ i < sfrows.length := by omega
    rw [List.getElem?_eq_none (by omega), List.getElem?_eq_none (by omega)]
    rfl

/-- Claim C6. For distinct valid rows, existing columns and shuffled row lists that
are permutations of `rows`, `Shuffle` (in both modes) completes and only rearranges:
every named column's cell at `rows[i]` is that column's original cell at
`sfrows[i]`, the cells of each named column at `rows` are a permutation of the
original ones, and cells in other rows or other columns are untouched. -/
theorem Shuffle_only_rearranges {β : Type} (dt : Table β) (rows : List Int)
    (colNames : List String) (colIndependent : Bool)
    (PermuteInts : Nat → List Int → List Int)
    (hnd : rows.Nodup)
    (hvalid : ∀ c ∈ colNames, ∀ r ∈ rows, (dt c r).isSome)
    (hperm : ∀ k, (PermuteInts k rows).Perm rows) :
    ∃ dt1, Shuffle dt rows colNames colIndependent PermuteInts = some dt1 ∧
      (∀ c ∈ colNames, ∃ k, k < colNames.length ∧ colNames[k]? = some c ∧
        (∀ (i : Nat) (row sr : Int), rows[i]? = some row →
          (sfrowsAt colIndependent PermuteInts rows k)[i]? = some sr →
            dt1 c row = dt c sr) ∧
        (rows.map (dt1 c)).Perm (rows.map (dt c))) ∧
      (∀ c r, (c ∉ colNames ∨ r ∉ rows) → dt1 c r = dt c r) := by
  have key : ∀ sf : Nat → List Int, (∀ k, (sf k).Perm rows) →
      ∃ dt1, colLoop (Clone dt) rows sf colNames 0 dt = some dt1 ∧
        (∀ c ∈ colNames, ∃ k, k < colNames.length ∧ colNames[k]? = some c ∧
          (∀ (i : Nat) (row sr : Int), rows[i]? = some row → (sf k)[i]? = some sr → dt1 c row = dt c sr) ∧
          (rows.map (dt1 c)).Perm (rows.map (dt c))) ∧
        (∀ c r, (c ∉ colNames ∨ r ∉ rows) → dt1 c r = dt c r) := by
    intro sf hsf
    obtain ⟨dt1, hrun, hframe, _, hval⟩ :=
      colLoop_spec (Clone dt) rows sf hnd
        (fun k j hj => perm_getElem_mem rows (sf k) (hsf k) j hj) colNames 0 dt hvalid hvalid
    refine ⟨dt1, hrun, ?_, hframe⟩
    intro c hc
    obtain ⟨m, hm, hcm, hv⟩ := hval c hc
    rw [Nat.zero_add] at hv
    refine ⟨m, hm, hcm, hv, ?_⟩
    rw [map_eq_of_pointwise rows (sf m) (dt1 c) (dt c) (hsf m).length_eq hv]
    exact (hsf m).map _
  cases colIndependent with
  | true =>
    obtain ⟨dt1, hrun, hv, hf⟩ := key (fun k => PermuteInts k rows) hperm
    exact ⟨dt1, by simp only [Shuffle, if_true]; exact hrun, by simpa [sfrowsAt] using hv, hf⟩
  | false =>
    obtain ⟨dt1, hrun, hv, hf⟩ := key (fun _ => PermuteInts 0 rows) (fun _ => hperm 0)
    exact ⟨dt1, by simpa [Shuffle] using hrun, by simpa [sfrowsAt] using hv, hf⟩

/-- Witness of C6: column `A` of `sampleTable`, rows 0 and 2, shuffled by reversal. -/
theorem Shuffle_only_rearranges_witness :
    ∃ dt1, Shuffle sampleTable [0, 2] ["A"] true reverseInts = some dt1 ∧
      (∀ c ∈ ["A"], ∃ k, k < ["A"].length ∧ ["A"][k]? = some c ∧
        (∀ (i : Nat) (row sr : Int), ([0, 2] : List Int)[i]? = some row →
          (sfrowsAt true reverseInts [0, 2] k)[i]? = some sr →
            dt1 c row = sampleTable c sr) ∧
        (([0, 2] : List Int).map (dt1 c)).Perm (([0, 2] : List Int).map (sampleTable c))) ∧
      (∀ c r, (c ∉ ["A"] ∨ r ∉ ([0, 2] : List Int)) → dt1 c r = sampleTable c r) :=
  Shuffle_only_rearranges sampleTable [0, 2] ["A"] true reverseInts
    (by decide)
    (by
      intro c hc r hr
      simp at hc hr
      subst hc
      rcases hr with h | h <;> subst h <;> simp [sampleTable])
    (fun _ => List.reverse_perm _)

end Patgen
